import Mathlib

/-!
Verification development for the mlpack sources under review:
`src/mlpack/methods/nca/nca_main.cpp` (the NCA command-line driver) and
`src/mlpack/core/data/scaler_methods/pcawhitening.hpp` (the PCA whitening scaler).

The NCA driver is embedded over a model of dynamically sized Armadillo
matrices with rational entries (the driver itself performs only rational
arithmetic: ranges, subtraction, division).  The driver is modelled as a pure
function from its configuration to an ordered trace of observable events
(seeding, warnings, fatal errors, optimizer runs, output saving), mirroring
the statement order of `mlpackMain`.

The PCA whitening scaler is embedded over Mathlib matrices with real entries;
the LAPACK symmetric eigendecomposition used by `arma::eig_sym` is abstracted
by its contract (orthonormal eigenvectors, ascending eigenvalues, and the
spectral decomposition identity).
-/

namespace NCAMain

/-- Model of a dynamically sized Armadillo dense matrix with rational entries.
Entries outside the `nRows × nCols` bounds are kept at `0` by every
constructor in this development. -/
structure AMat where
  nRows : ℕ
  nCols : ℕ
  entry : ℕ → ℕ → ℚ

/-- A default-constructed `arma::mat`: the 0×0 empty matrix. -/
def AMat.empty : AMat := ⟨0, 0, fun _ _ => 0⟩

/-- The member function `arma::mat::eye()` with no arguments: sets the main
diagonal to one and off-diagonal elements to zero, keeping the current size
of the matrix unchanged (it does not resize). -/
def AMat.eyeInPlace (m : AMat) : AMat :=
  ⟨m.nRows, m.nCols, fun i j => if i = j ∧ i < m.nRows ∧ j < m.nCols then 1 else 0⟩

/-- The d×d identity matrix, as the specification describes the identity
starting point (a freestanding definition used to compare against the code). -/
def specEye (d : ℕ) : AMat :=
  ⟨d, d, fun i j => if i = j ∧ i < d ∧ j < d then 1 else 0⟩

/-- Maximum of row `i` across all columns (`arma::max(data, 1)` for one
dimension); meaningful when the matrix has at least one column. -/
def AMat.rowMax (m : AMat) (i : ℕ) : ℚ :=
  (List.range m.nCols).foldl (fun a j => max a (m.entry i j)) (m.entry i 0)

/-- Minimum of row `i` across all columns (`arma::min(data, 1)` for one
dimension); meaningful when the matrix has at least one column. -/
def AMat.rowMin (m : AMat) (i : ℕ) : ℚ :=
  (List.range m.nCols).foldl (fun a j => min a (m.entry i j)) (m.entry i 0)

/-- The per-feature range `max - min` of row `i`, as computed at line 221 of
`nca_main.cpp`. -/
def AMat.range (m : AMat) (i : ℕ) : ℚ := m.rowMax i - m.rowMin i

/-- The adjusted range after the zero-replacement loop at lines 222-224 of
`nca_main.cpp`: a range of exactly `0` is replaced by `1`. -/
def AMat.adjRange (m : AMat) (i : ℕ) : ℚ :=
  if m.range i = 0 then 1 else m.range i

/-- The initial distance matrix built by `mlpackMain` (lines 215-233): with
`normalize` set, `diagmat(1.0 / ranges)` over the adjusted ranges (a fresh
`nRows × nRows` matrix); with `normalize` unset, the member call
`distance.eye()` on the default-constructed matrix `distance`. -/
def initialDistance (normalize : Bool) (data : AMat) : AMat :=
  if normalize then
    ⟨data.nRows, data.nRows,
      fun i j => if i = j ∧ i < data.nRows ∧ j < data.nRows then 1 / data.adjRange i else 0⟩
  else
    AMat.empty.eyeInPlace

/-- The C cast `(size_t) x` applied to a floating-point value, modelled on
exact rationals: truncation toward zero (negative values, undefined behaviour
in C++, are clamped to zero). -/
def sizeTOfRat (q : ℚ) : ℕ := (q.num / (q.den : ℤ)).toNat

/-- The C cast `(size_t) x` applied to a signed integer: reduction modulo
2^64. -/
def toSizeT (i : ℤ) : ℕ := (i % (2 : ℤ) ^ 64).toNat

/-- `data.shed_row(data.n_rows - 1)`: removes the last row of the matrix,
keeping all remaining entries in place (lines 207 of `nca_main.cpp`). -/
def shedLastRow (m : AMat) : AMat :=
  ⟨m.nRows - 1, m.nCols, fun i j => if i < m.nRows - 1 ∧ j < m.nCols then m.entry i j else 0⟩

/-- The raw labels read from the last row of the input matrix when the
`labels` parameter is absent (lines 204-205 of `nca_main.cpp`): entry `i` is
the `(size_t)` cast of the last-row entry of column `i`. -/
def lastRowLabels (m : AMat) : List ℕ :=
  (List.range m.nCols).map fun i => sizeTOfRat (m.entry (m.nRows - 1) i)

/-- Modelled from the spec: `data::NormalizeLabels` is not part of the
reviewed sources; per the specification the Label Normalizer "maps arbitrary
label values to a dense zero-based integer range".  We map each label to the
index of its first occurrence among the distinct raw values, and return the
list of distinct values as the mappings. -/
def normalizeLabels (raw : List ℕ) : List ℕ × List ℕ :=
  let mappings := raw.dedup
  (raw.map fun v => mappings.indexOf v, mappings)

/-- The parameter name string for the optimizer value of SGD. -/
def sSgd : String := "sgd"

/-- The parameter name string for the optimizer value of L-BFGS. -/
def sLbfgs : String := "lbfgs"

/-- The parameter name string for `num_basis`. -/
def sNumBasis : String := "num_basis"

/-- The parameter name string for `armijo_constant`. -/
def sArmijoConstant : String := "armijo_constant"

/-- The parameter name string for `wolfe`. -/
def sWolfe : String := "wolfe"

/-- The parameter name string for `max_line_search_trials`. -/
def sMaxLineSearchTrials : String := "max_line_search_trials"

/-- The parameter name string for `min_step`. -/
def sMinStep : String := "min_step"

/-- The parameter name string for `max_step`. -/
def sMaxStep : String := "max_step"

/-- The parameter name string for `batch_size`. -/
def sBatchSize : String := "batch_size"

/-- The parameter name string for `step_size`. -/
def sStepSize : String := "step_size"

/-- The parameter name string for `linear_scan`. -/
def sLinearScan : String := "linear_scan"

/-- The configuration handed to the SGD optimizer by the sgd branch of
`mlpackMain` (lines 238-243 of `nca_main.cpp`). -/
structure SgdCfg where
  stepSize : ℚ
  maxIterations : ℕ
  tolerance : ℚ
  shuffle : Bool
  batchSize : ℕ
deriving DecidableEq

/-- The configuration handed to the L-BFGS optimizer by the lbfgs branch of
`mlpackMain` (lines 249-257 of `nca_main.cpp`). -/
structure LbfgsCfg where
  numBasis : ℤ
  maxIterations : ℕ
  armijoConstant : ℚ
  wolfe : ℚ
  minGradientNorm : ℚ
  maxLineSearchTrials : ℤ
  minStep : ℚ
  maxStep : ℚ
deriving DecidableEq

/-- The command-line parameters of the NCA program, with `passed` the set of
option names explicitly supplied on the command line (what `CLI::HasParam`
reports for the optional parameters). -/
structure NcaParams where
  input : AMat
  labels : Option (List ℕ)
  optimizer : String
  normalize : Bool
  maxIterations : ℤ
  tolerance : ℚ
  stepSize : ℚ
  linearScan : Bool
  batchSize : ℤ
  numBasis : ℤ
  armijoConstant : ℚ
  wolfe : ℚ
  maxLineSearchTrials : ℤ
  minStep : ℚ
  maxStep : ℚ
  seed : ℤ
  outputRequested : Bool
  passed : List String

/-- Observable events of one `mlpackMain` invocation, in program order.  A
fatal event (`Log::Fatal` or a failed `RequireParamInSet`) terminates the
trace. -/
inductive Event where
  | seedRng (v : ℕ)
  | warnNoOutput
  | fatalUnknownOptimizer (s : String)
  | warnIgnored (name : String)
  | fatalLabelMismatch (nLabels nPoints : ℕ)
  | infoLastRowLabels
  | infoNormalizedStart
  | runSgd (cfg : SgdCfg) (data : AMat) (labels : List ℕ) (init : AMat) (result : AMat)
  | runLbfgs (cfg : LbfgsCfg) (data : AMat) (labels : List ℕ) (init : AMat) (result : AMat)
  | saveOutput (m : AMat)

/-- Whether an event is an optimizer run (NCA construction plus
`LearnDistance`). -/
def Event.isRun : Event → Bool
  | .runSgd _ _ _ _ _ => true
  | .runLbfgs _ _ _ _ _ => true
  | _ => false

/-- The dataset handed to the optimizer run carried by an event, if any. -/
def Event.runData : Event → Option AMat
  | .runSgd _ d _ _ _ => some d
  | .runLbfgs _ d _ _ _ => some d
  | _ => none

/-- The initial transform handed to `LearnDistance` by the run carried by an
event, if any. -/
def Event.runInit : Event → Option AMat
  | .runSgd _ _ _ i _ => some i
  | .runLbfgs _ _ _ i _ => some i
  | _ => none

/-- The normalized labels handed to the optimizer run carried by an event, if
any. -/
def Event.runLabels : Event → Option (List ℕ)
  | .runSgd _ _ l _ _ => some l
  | .runLbfgs _ _ l _ _ => some l
  | _ => none

/-- Entrywise update `a + s * g` restricted to the bounds of `a` (one gradient
step on the transform matrix). -/
def addScaled (a : AMat) (s : ℚ) (g : AMat) : AMat :=
  ⟨a.nRows, a.nCols,
    fun i j => if i < a.nRows ∧ j < a.nCols then a.entry i j + s * g.entry i j else 0⟩

/-- Modelled from the spec: the SGD optimizer (`mlpack::optimization::SGD`)
is not part of the reviewed sources.  Per §4.2 of the specification, each
iteration visits a batch of points, in sequential order when shuffling is
disabled and in an order drawn from the random generator state when it is
enabled, and applies a gradient step of size `stepSize`.  The objective
evaluator (`SoftmaxErrorFunction`, also outside the reviewed sources) is the
abstract parameter `grad`; the permutation drawn from the generator is the
abstract parameter `shuffleOrder`, applied to the generator state. -/
def sgdOptimize (grad : AMat → List ℕ → List ℕ → AMat) (shuffleOrder : ℕ → ℕ → List ℕ) (rng : ℕ)
    (cfg : SgdCfg) (data : AMat) (labels : List ℕ) (init : AMat) : AMat :=
  let order := if cfg.shuffle then shuffleOrder rng data.nCols else List.range data.nCols
  (List.range cfg.maxIterations).foldl
    (fun t k =>
      let batch := (order.drop ((k * cfg.batchSize) % max data.nCols 1)).take cfg.batchSize
      addScaled t cfg.stepSize (grad t labels batch))
    init

/-- Modelled from the spec: the L-BFGS optimizer (`optimization::L_BFGS`) is
not part of the reviewed sources.  Per §4.2 of the specification it is a
deterministic quasi-Newton iteration of the objective evaluator with no
stochastic component; we model it as a deterministic iteration of the
abstract gradient evaluator `grad`. -/
def lbfgsOptimize (grad : AMat → List ℕ → List ℕ → AMat) (cfg : LbfgsCfg) (data : AMat)
    (labels : List ℕ) (init : AMat) : AMat :=
  (List.range cfg.maxIterations).foldl
    (fun t _ => addScaled t 1 (grad t labels (List.range data.nCols)))
    init

/-- The SGD configuration `mlpackMain` builds from its parameters
(lines 239-243 of `nca_main.cpp`): note `Shuffle` is the negation of
`linear_scan` (line 177) and `BatchSize` is set from `batch_size`
(line 243). -/
def sgdCfgOf (p : NcaParams) : SgdCfg :=
  ⟨p.stepSize, p.maxIterations.toNat, p.tolerance, !p.linearScan, p.batchSize.toNat⟩

/-- The L-BFGS configuration `mlpackMain` builds from its parameters
(lines 250-257 of `nca_main.cpp`): note `MinGradientNorm` is set from
`tolerance`. -/
def lbfgsCfgOf (p : NcaParams) : LbfgsCfg :=
  ⟨p.numBasis, p.maxIterations.toNat, p.armijoConstant, p.wolfe, p.tolerance,
    p.maxLineSearchTrials, p.minStep, p.maxStep⟩

/-- Modelled from the spec: `ReportIgnoredParam` (mlpack CLI utilities, not
part of the reviewed sources) surfaces a non-fatal notice for the named
option exactly when that option was passed on the command line. -/
def reportIgnored (p : NcaParams) (name : String) : List Event :=
  if name ∈ p.passed then [Event.warnIgnored name] else []

/-- The ignored-option notices issued by lines 154-171 of `nca_main.cpp`, in
program order: with optimizer sgd, the seven `ReportIgnoredParam` calls of
the sgd branch (including `batch_size`); with optimizer lbfgs, the three
calls of the lbfgs branch. -/
def ignoredNotices (p : NcaParams) : List Event :=
  if p.optimizer = sSgd then
    reportIgnored p sNumBasis ++ reportIgnored p sArmijoConstant ++ reportIgnored p sWolfe ++
      reportIgnored p sMaxLineSearchTrials ++ reportIgnored p sMinStep ++
      reportIgnored p sMaxStep ++ reportIgnored p sBatchSize
  else if p.optimizer = sLbfgs then
    reportIgnored p sStepSize ++ reportIgnored p sLinearScan ++ reportIgnored p sBatchSize
  else []

/-- The tail of the trace from the NCA construction onwards (lines 215-264 of
`nca_main.cpp`): the normalize-branch info message, the optimizer run on the
prepared data, labels and initial distance, and the output save. -/
def mainRun (grad : AMat → List ℕ → List ℕ → AMat) (shuffleOrder : ℕ → ℕ → List ℕ) (rng : ℕ)
    (p : NcaParams) (data : AMat) (rawLabels : List ℕ) : List Event :=
  (if p.normalize then [Event.infoNormalizedStart] else []) ++
    (if p.optimizer = sSgd then
      Event.runSgd (sgdCfgOf p) data (normalizeLabels rawLabels).1
          (initialDistance p.normalize data)
          (sgdOptimize grad shuffleOrder rng (sgdCfgOf p) data (normalizeLabels rawLabels).1
            (initialDistance p.normalize data)) ::
        (if p.outputRequested then
          [Event.saveOutput (sgdOptimize grad shuffleOrder rng (sgdCfgOf p) data
            (normalizeLabels rawLabels).1 (initialDistance p.normalize data))]
        else [])
    else
      Event.runLbfgs (lbfgsCfgOf p) data (normalizeLabels rawLabels).1
          (initialDistance p.normalize data)
          (lbfgsOptimize grad (lbfgsCfgOf p) data (normalizeLabels rawLabels).1
            (initialDistance p.normalize data)) ::
        (if p.outputRequested then
          [Event.saveOutput (lbfgsOptimize grad (lbfgsCfgOf p) data
            (normalizeLabels rawLabels).1 (initialDistance p.normalize data))]
        else []))

/-- The trace from the label handling onwards (lines 189-208 of
`nca_main.cpp`): with `labels` supplied, the element-count check (fatal on
mismatch) and the unchanged input matrix; with `labels` absent, the last row
of the input is consumed as labels and removed from the feature matrix. -/
def mainLabels (grad : AMat → List ℕ → List ℕ → AMat) (shuffleOrder : ℕ → ℕ → List ℕ) (rng : ℕ)
    (p : NcaParams) : List Event :=
  match p.labels with
  | some ls =>
    if ls.length ≠ p.input.nCols then
      [Event.fatalLabelMismatch ls.length p.input.nCols]
    else
      mainRun grad shuffleOrder rng p p.input ls
  | none =>
    Event.infoLastRowLabels ::
      mainRun grad shuffleOrder rng p (shedLastRow p.input) (lastRowLabels p.input)

/-- The embedding of `mlpackMain` (lines 141-265 of `nca_main.cpp`) as the
ordered trace of its observable events.  `time` is the ambient wall-clock
value read by `std::time(NULL)`; `grad` and `shuffleOrder` stand for the
objective evaluator and the shuffling draw of the (out-of-scope) optimizer
internals. -/
def mlpackMain (grad : AMat → List ℕ → List ℕ → AMat) (shuffleOrder : ℕ → ℕ → List ℕ) (time : ℕ)
    (p : NcaParams) : List Event :=
  Event.seedRng (if p.seed ≠ 0 then toSizeT p.seed else time) ::
    ((if p.outputRequested then [] else [Event.warnNoOutput]) ++
      (if p.optimizer ≠ sSgd ∧ p.optimizer ≠ sLbfgs then
        [Event.fatalUnknownOptimizer p.optimizer]
      else
        ignoredNotices p ++
          mainLabels grad shuffleOrder (if p.seed ≠ 0 then toSizeT p.seed else time) p))

/-- A trivial objective evaluator used for concrete instantiations: the
gradient is the current transform itself. -/
def gradZero : AMat → List ℕ → List ℕ → AMat := fun t _ _ => t

/-- A trivial shuffling draw used for concrete instantiations: the identity
order. -/
def shufId : ℕ → ℕ → List ℕ := fun _ n => List.range n

/-- A concrete 2×3 dataset (two feature rows, three points). -/
def dataA : AMat := ⟨2, 3, fun i j => if i < 2 ∧ j < 3 then (i : ℚ) + (j : ℚ) else 0⟩

/-- An event of a `reportIgnored` list is the corresponding ignored-option
warning. -/
theorem mem_reportIgnored (p : NcaParams) (name : String) (e : Event)
    (h : e ∈ reportIgnored p name) : e = Event.warnIgnored name := by
  unfold reportIgnored at h
  split at h
  · simpa using h
  · simp at h

/-- Every ignored-option notice is a warning, not an optimizer run. -/
theorem ignoredNotices_isRun_false (p : NcaParams) :
    ∀ e ∈ ignoredNotices p, e.isRun = false := by
  intro e he
  unfold ignoredNotices at he
  split at he
  · simp only [List.append_assoc, List.mem_append] at he
    rcases he with h | h | h | h | h | h | h <;>
      (obtain rfl := mem_reportIgnored _ _ _ h; rfl)
  · split at he
    · simp only [List.append_assoc, List.mem_append] at he
      rcases he with h | h | h <;> (obtain rfl := mem_reportIgnored _ _ _ h; rfl)
    · simp at he

/-- An event that is not an optimizer run carries no run dataset. -/
theorem runData_none (e : Event) (h : e.isRun = false) : e.runData = none := by
  cases e <;> first | rfl | simp [Event.isRun] at h

/-- An event that is not an optimizer run carries no initial transform. -/
theorem runInit_none (e : Event) (h : e.isRun = false) : e.runInit = none := by
  cases e <;> first | rfl | simp [Event.isRun] at h

/-- Every event of `mainRun` that carries an optimizer run hands it exactly
the prepared dataset, the normalized labels, and the initial distance built
by `initialDistance`. -/
theorem mainRun_run_args (grad : AMat → List ℕ → List ℕ → AMat)
    (shuffleOrder : ℕ → ℕ → List ℕ) (rng : ℕ) (p : NcaParams) (data : AMat)
    (raw : List ℕ) :
    ∀ e ∈ mainRun grad shuffleOrder rng p data raw,
      (∀ d, e.runData = some d → d = data) ∧
      (∀ m, e.runInit = some m → m = initialDistance p.normalize data) ∧
      (∀ l, e.runLabels = some l → l = (normalizeLabels raw).1) := by
  intro e he
  unfold mainRun at he
  rcases List.mem_append.mp he with h1 | h2
  · have : e = Event.infoNormalizedStart := by
      split at h1
      · simpa using h1
      · simp at h1
    subst this
    exact ⟨fun d hd => by simp [Event.runData] at hd,
           fun m hm => by simp [Event.runInit] at hm,
           fun l hl => by simp [Event.runLabels] at hl⟩
  · have hsave : ∀ r : AMat, e ∈ (if p.outputRequested then [Event.saveOutput r] else []) →
        e = Event.saveOutput r := by
      intro r hr
      split at hr
      · simpa using hr
      · simp at hr
    split at h2
    · rcases List.mem_cons.mp h2 with h3 | h4
      · subst h3
        refine ⟨fun d hd => ?_, fun m hm => ?_, fun l hl => ?_⟩
        · simp only [Event.runData, Option.some.injEq] at hd; exact hd.symm
        · simp only [Event.runInit, Option.some.injEq] at hm; exact hm.symm
        · simp only [Event.runLabels, Option.some.injEq] at hl; exact hl.symm
      · obtain rfl := hsave _ h4
        exact ⟨fun d hd => by simp [Event.runData] at hd,
               fun m hm => by simp [Event.runInit] at hm,
               fun l hl => by simp [Event.runLabels] at hl⟩
    · rcases List.mem_cons.mp h2 with h3 | h4
      · subst h3
        refine ⟨fun d hd => ?_, fun m hm => ?_, fun l hl => ?_⟩
        · simp only [Event.runData, Option.some.injEq] at hd; exact hd.symm
        · simp only [Event.runInit, Option.some.injEq] at hm; exact hm.symm
        · simp only [Event.runLabels, Option.some.injEq] at hl; exact hl.symm
      · obtain rfl := hsave _ h4
        exact ⟨fun d hd => by simp [Event.runData] at hd,
               fun m hm => by simp [Event.runInit] at hm,
               fun l hl => by simp [Event.runLabels] at hl⟩

/-- Unfolding of `mainLabels` when the `labels` parameter is absent. -/
theorem mainLabels_none (grad : AMat → List ℕ → List ℕ → AMat)
    (shuffleOrder : ℕ → ℕ → List ℕ) (rng : ℕ) (p : NcaParams)
    (h : p.labels = none) :
    mainLabels grad shuffleOrder rng p =
      Event.infoLastRowLabels ::
        mainRun grad shuffleOrder rng p (shedLastRow p.input) (lastRowLabels p.input) := by
  unfold mainLabels
  rw [h]

/-- Unfolding of `mainLabels` when the `labels` parameter is supplied. -/
theorem mainLabels_some (grad : AMat → List ℕ → List ℕ → AMat)
    (shuffleOrder : ℕ → ℕ → List ℕ) (rng : ℕ) (p : NcaParams) (ls : List ℕ)
    (h : p.labels = some ls) :
    mainLabels grad shuffleOrder rng p =
      if ls.length ≠ p.input.nCols then
        [Event.fatalLabelMismatch ls.length p.input.nCols]
      else
        mainRun grad shuffleOrder rng p p.input ls := by
  unfold mainLabels
  rw [h]

/-- Structure of a full trace: every event either is not an optimizer run, or
belongs to the `mainRun` stage for the prepared dataset (the unchanged input
when labels were supplied, the input with its last row shed when they were
not). -/
theorem mlpackMain_structure (grad : AMat → List ℕ → List ℕ → AMat)
    (shuffleOrder : ℕ → ℕ → List ℕ) (time : ℕ) (p : NcaParams) :
    ∀ e ∈ mlpackMain grad shuffleOrder time p,
      e.isRun = false ∨
      ∃ data raw,
        e ∈ mainRun grad shuffleOrder (if p.seed ≠ 0 then toSizeT p.seed else time) p data raw ∧
        ((p.labels = none ∧ data = shedLastRow p.input ∧ raw = lastRowLabels p.input) ∨
         (∃ ls, p.labels = some ls ∧ data = p.input ∧ raw = ls)) := by
  intro e he
  unfold mlpackMain at he
  rcases List.mem_cons.mp he with h1 | h2
  · exact Or.inl (h1 ▸ rfl)
  · rcases List.mem_append.mp h2 with h3 | h4
    · left
      split at h3
      · simp at h3
      · simp only [List.mem_singleton] at h3; exact h3 ▸ rfl
    · split at h4
      · simp only [List.mem_singleton] at h4
        exact Or.inl (h4 ▸ rfl)
      · rcases List.mem_append.mp h4 with h5 | h6
        · exact Or.inl (ignoredNotices_isRun_false p e h5)
        · rcases hl : p.labels with _ | ls
          · rw [mainLabels_none grad shuffleOrder _ p hl] at h6
            rcases List.mem_cons.mp h6 with h7 | h8
            · exact Or.inl (h7 ▸ rfl)
            · exact Or.inr ⟨_, _, h8, Or.inl ⟨rfl, rfl, rfl⟩⟩
          · rw [mainLabels_some grad shuffleOrder _ p ls hl] at h6
            by_cases hlen : ls.length ≠ p.input.nCols
            · rw [if_pos hlen] at h6
              simp only [List.mem_singleton] at h6
              exact Or.inl (h6 ▸ rfl)
            · rw [if_neg hlen] at h6
              exact Or.inr ⟨_, _, h6, Or.inr ⟨ls, rfl, rfl, rfl⟩⟩

/-- With an optimizer name outside the recognized set, the trace is exactly
the seeding, the possible missing-output warning, and the fatal error. -/
theorem mlpackMain_unknownOptimizer (grad : AMat → List ℕ → List ℕ → AMat)
    (shuffleOrder : ℕ → ℕ → List ℕ) (time : ℕ) (p : NcaParams)
    (h1 : p.optimizer ≠ sSgd) (h2 : p.optimizer ≠ sLbfgs) :
    mlpackMain grad shuffleOrder time p =
      Event.seedRng (if p.seed ≠ 0 then toSizeT p.seed else time) ::
        ((if p.outputRequested then [] else [Event.warnNoOutput]) ++
          [Event.fatalUnknownOptimizer p.optimizer]) := by
  unfold mlpackMain
  rw [if_pos (show p.optimizer ≠ sSgd ∧ p.optimizer ≠ sLbfgs from ⟨h1, h2⟩)]

/-- With a recognized optimizer but a label vector whose element count does
not match the number of points, the trace is exactly the seeding, the
possible missing-output warning, the ignored-option notices, and the fatal
label-mismatch error. -/
theorem mlpackMain_labelMismatch (grad : AMat → List ℕ → List ℕ → AMat)
    (shuffleOrder : ℕ → ℕ → List ℕ) (time : ℕ) (p : NcaParams) (ls : List ℕ)
    (hv : p.optimizer = sSgd ∨ p.optimizer = sLbfgs)
    (hl : p.labels = some ls) (hm : ls.length ≠ p.input.nCols) :
    mlpackMain grad shuffleOrder time p =
      Event.seedRng (if p.seed ≠ 0 then toSizeT p.seed else time) ::
        ((if p.outputRequested then [] else [Event.warnNoOutput]) ++
          (ignoredNotices p ++ [Event.fatalLabelMismatch ls.length p.input.nCols])) := by
  unfold mlpackMain
  rw [if_neg (show ¬(p.optimizer ≠ sSgd ∧ p.optimizer ≠ sLbfgs) from by
        rcases hv with hv | hv <;> simp [hv])]
  rw [mainLabels_some grad shuffleOrder _ p ls hl, if_pos hm]

/-- Calling `.eye()` on a default-constructed matrix leaves it as the 0×0
empty matrix. -/
theorem eyeInPlace_empty : AMat.empty.eyeInPlace = AMat.empty := by
  unfold AMat.eyeInPlace AMat.empty
  simp

/-- With `normalize` unset, the initial distance matrix is the 0×0 empty
matrix, for every dataset. -/
theorem initialDistance_false (data : AMat) :
    initialDistance false data = AMat.empty := by
  unfold initialDistance
  simpa using eyeInPlace_empty

/-- Claim C1, counterexample: for the concrete 2-feature dataset `dataA` with
`normalize` unset, the initial distance matrix is not the D×D identity
(D = 2): it is the 0×0 empty matrix. -/
theorem nca_C1_counterexample : initialDistance false dataA ≠ specEye dataA.nRows := by
  intro h
  have h2 := congrArg AMat.nRows h
  simp [initialDistance, AMat.eyeInPlace, AMat.empty, specEye, dataA] at h2

/-- Claim C1, amended: when the `normalize` option is unset, the initial
distance transform handed to `LearnDistance` is the 0×0 empty matrix (the
member call `distance.eye()` does not resize the default-constructed matrix),
not the D×D identity. -/
theorem nca_C1_amended (grad : AMat → List ℕ → List ℕ → AMat)
    (shuffleOrder : ℕ → ℕ → List ℕ) (time : ℕ) (p : NcaParams)
    (h : p.normalize = false) :
    (∀ data, initialDistance p.normalize data = AMat.empty) ∧
    ∀ e ∈ mlpackMain grad shuffleOrder time p, ∀ m, e.runInit = some m →
      m = AMat.empty := by
  refine ⟨fun data => h ▸ initialDistance_false data, ?_⟩
  intro e he m hm
  rcases mlpackMain_structure grad shuffleOrder time p e he with hr | ⟨data, raw, hmem, _⟩
  · rw [runInit_none e hr] at hm
    exact Option.noConfusion hm
  · have := (mainRun_run_args grad shuffleOrder _ p data raw e hmem).2.1 m hm
    rw [this, h, initialDistance_false]

/-- Claim C8: with a fixed nonzero `seed` and `linear_scan` enabled, two runs
of `mlpackMain` on identical inputs and hyperparameters (differing only in
the ambient wall-clock time) produce identical traces, and in particular
identical learned transform matrices. -/
theorem nca_C8 (grad : AMat → List ℕ → List ℕ → AMat)
    (shuffleOrder : ℕ → ℕ → List ℕ) (p : NcaParams) (t1 t2 : ℕ)
    (hseed : p.seed ≠ 0) (hscan : p.linearScan = true) :
    mlpackMain grad shuffleOrder t1 p = mlpackMain grad shuffleOrder t2 p := by
  unfold mlpackMain
  rw [if_pos hseed, if_pos hseed]

/-- Claim C9: the random generator is seeded as the very first action of
`mlpackMain` — with the (size_t cast of the) `seed` value when it is nonzero,
and with the wall-clock time when `seed` is 0. -/
theorem nca_C9 (grad : AMat → List ℕ → List ℕ → AMat)
    (shuffleOrder : ℕ → ℕ → List ℕ) (time : ℕ) (p : NcaParams) :
    (mlpackMain grad shuffleOrder time p).head? =
      some (Event.seedRng (if p.seed ≠ 0 then toSizeT p.seed else time)) := by
  unfold mlpackMain
  rfl

/-- With a recognized optimizer, the trace is the seeding, the possible
missing-output warning, the ignored-option notices, and the label-handling
stage. -/
theorem mlpackMain_valid (grad : AMat → List ℕ → List ℕ → AMat)
    (shuffleOrder : ℕ → ℕ → List ℕ) (time : ℕ) (p : NcaParams)
    (hv : p.optimizer = sSgd ∨ p.optimizer = sLbfgs) :
    mlpackMain grad shuffleOrder time p =
      Event.seedRng (if p.seed ≠ 0 then toSizeT p.seed else time) ::
        ((if p.outputRequested then [] else [Event.warnNoOutput]) ++
          (ignoredNotices p ++
            mainLabels grad shuffleOrder (if p.seed ≠ 0 then toSizeT p.seed else time) p)) := by
  unfold mlpackMain
  rw [if_neg (show ¬(p.optimizer ≠ sSgd ∧ p.optimizer ≠ sLbfgs) from by
        rcases hv with hv | hv <;> simp [hv])]

/-- Base parameter record for concrete instantiations: sgd optimizer, labels
supplied, nothing extra passed. -/
def pBase : NcaParams :=
  { input := dataA, labels := some [0, 1, 0], optimizer := sSgd, normalize := false,
    maxIterations := 3, tolerance := 1 / 100000, stepSize := 1 / 100, linearScan := true,
    batchSize := 50, numBasis := 5, armijoConstant := 1 / 10000, wolfe := 9 / 10,
    maxLineSearchTrials := 50, minStep := 1 / 1000, maxStep := 1000, seed := 7,
    outputRequested := true, passed := [] }

/-- Claim C1, witness for the amended theorem at a concrete configuration. -/
theorem nca_C1_witness : initialDistance pBase.normalize dataA = AMat.empty :=
  (nca_C1_amended gradZero shufId 0 pBase rfl).1 dataA

/-- Claim C8, witness: two concrete runs at distinct wall-clock times. -/
theorem nca_C8_witness :
    mlpackMain gradZero shufId 0 pBase = mlpackMain gradZero shufId 99 pBase :=
  nca_C8 gradZero shufId pBase 0 99 (by decide) rfl

/-- Claim C4: an optimizer name outside the recognized set, and (with a
recognized optimizer) a supplied label vector whose element count differs
from the number of points, are both fatal, reported, and abort the program
before any optimizer run (no NCA construction, no `LearnDistance`). -/
theorem nca_C4 (grad : AMat → List ℕ → List ℕ → AMat)
    (shuffleOrder : ℕ → ℕ → List ℕ) (time : ℕ) (p : NcaParams) :
    (p.optimizer ≠ sSgd → p.optimizer ≠ sLbfgs →
      Event.fatalUnknownOptimizer p.optimizer ∈ mlpackMain grad shuffleOrder time p ∧
        ∀ e ∈ mlpackMain grad shuffleOrder time p, e.isRun = false) ∧
    (∀ ls, (p.optimizer = sSgd ∨ p.optimizer = sLbfgs) → p.labels = some ls →
      ls.length ≠ p.input.nCols →
      Event.fatalLabelMismatch ls.length p.input.nCols ∈ mlpackMain grad shuffleOrder time p ∧
        ∀ e ∈ mlpackMain grad shuffleOrder time p, e.isRun = false) := by
  constructor
  · intro h1 h2
    rw [mlpackMain_unknownOptimizer grad shuffleOrder time p h1 h2]
    refine ⟨List.mem_cons_of_mem _ (List.mem_append_right _ (List.mem_singleton_self _)), ?_⟩
    intro e he
    rcases List.mem_cons.mp he with h3 | h4
    · exact h3 ▸ rfl
    rcases List.mem_append.mp h4 with h5 | h6
    · have : e = Event.warnNoOutput := by
        revert h5
        split
        · intro h5; exact absurd h5 (List.not_mem_nil e)
        · intro h5; simpa using h5
      exact this ▸ rfl
    · simp only [List.mem_singleton] at h6
      exact h6 ▸ rfl
  · intro ls hv hl hm
    rw [mlpackMain_labelMismatch grad shuffleOrder time p ls hv hl hm]
    refine ⟨List.mem_cons_of_mem _
      (List.mem_append_right _ (List.mem_append_right _ (List.mem_singleton_self _))), ?_⟩
    intro e he
    rcases List.mem_cons.mp he with h3 | h4
    · exact h3 ▸ rfl
    rcases List.mem_append.mp h4 with h5 | h6
    · have : e = Event.warnNoOutput := by
        revert h5
        split
        · intro h5; exact absurd h5 (List.not_mem_nil e)
        · intro h5; simpa using h5
      exact this ▸ rfl
    rcases List.mem_append.mp h6 with h7 | h8
    · exact ignoredNotices_isRun_false p e h7
    · simp only [List.mem_singleton] at h8
      exact h8 ▸ rfl

/-- A configuration with an unrecognized optimizer name. -/
def pBadOpt : NcaParams := { pBase with optimizer := "adam" }

/-- A configuration matching the label-mismatch scenario of the spec: 10
points, 9 labels. -/
def pMismatch : NcaParams :=
  { pBase with input := ⟨1, 10, fun _ _ => 0⟩, labels := some (List.replicate 9 0) }

/-- Claim C4, witness: the two configuration errors at concrete inputs. -/
theorem nca_C4_witness :
    Event.fatalUnknownOptimizer pBadOpt.optimizer ∈ mlpackMain gradZero shufId 0 pBadOpt ∧
    Event.fatalLabelMismatch 9 10 ∈ mlpackMain gradZero shufId 0 pMismatch := by
  refine ⟨((nca_C4 gradZero shufId 0 pBadOpt).1 (by decide) (by decide)).1, ?_⟩
  have h := ((nca_C4 gradZero shufId 0 pMismatch).2 (List.replicate 9 0)
    (Or.inl rfl) rfl (by decide)).1
  simpa using h

/-- A concrete 1×2 dataset (one feature row, two points). -/
def dataB1 : AMat := ⟨1, 2, fun i j => if i < 1 ∧ j < 2 then (j : ℚ) else 0⟩

/-- A configuration selecting the sgd optimizer with `batch_size` explicitly
passed on the command line (value 32). -/
def pSgdBatch : NcaParams :=
  { pBase with
    input := dataB1
    labels := some [0, 1]
    batchSize := 32
    seed := 1
    passed := [sBatchSize] }

/-- Claim C2 (code_bug): with `optimizer` sgd and `batch_size` passed, the
trace contains an ignored-option notice for `batch_size` (the sgd branch
calls `ReportIgnoredParam` on it at line 164) even though the very same run
hands the SGD optimizer a configuration consuming that `batch_size` value
(line 243): the notice names an option the selected optimizer actually
uses, contradicting the claim. -/
theorem nca_C2_bug :
    Event.warnIgnored sBatchSize ∈ mlpackMain gradZero shufId 0 pSgdBatch ∧
    (∃ data labels init result,
      Event.runSgd (sgdCfgOf pSgdBatch) data labels init result ∈
        mlpackMain gradZero shufId 0 pSgdBatch) ∧
    (sgdCfgOf pSgdBatch).batchSize = 32 := by
  have hv : pSgdBatch.optimizer = sSgd := rfl
  refine ⟨?_, ?_, rfl⟩
  · rw [mlpackMain_valid gradZero shufId 0 pSgdBatch (Or.inl hv)]
    apply List.mem_cons_of_mem
    apply List.mem_append_right
    apply List.mem_append_left
    unfold ignoredNotices
    rw [if_pos hv]
    simp [reportIgnored, pSgdBatch, pBase, sBatchSize, sNumBasis, sArmijoConstant,
      sWolfe, sMaxLineSearchTrials, sMinStep, sMaxStep]
  · have hmem : Event.runSgd (sgdCfgOf pSgdBatch) pSgdBatch.input
        (normalizeLabels [0, 1]).1 (initialDistance pSgdBatch.normalize pSgdBatch.input)
        (sgdOptimize gradZero shufId
          (if pSgdBatch.seed ≠ 0 then toSizeT pSgdBatch.seed else 0) (sgdCfgOf pSgdBatch)
          pSgdBatch.input (normalizeLabels [0, 1]).1
          (initialDistance pSgdBatch.normalize pSgdBatch.input)) ∈
        mlpackMain gradZero shufId 0 pSgdBatch := by
      rw [mlpackMain_valid gradZero shufId 0 pSgdBatch (Or.inl hv)]
      apply List.mem_cons_of_mem
      apply List.mem_append_right
      apply List.mem_append_right
      rw [mainLabels_some gradZero shufId _ pSgdBatch [0, 1] rfl, if_neg (by decide)]
      unfold mainRun
      rw [if_neg (show ¬(pSgdBatch.normalize = true) by decide), if_pos hv]
      exact List.mem_append_right _ (List.mem_cons_self _ _)
    exact ⟨_, _, _, _, hmem⟩

/-- Initial element bound: a `foldl` of binary maxima is at least its initial
accumulator. -/
theorem le_foldl_max (f : ℕ → ℚ) (l : List ℕ) (a : ℚ) :
    a ≤ l.foldl (fun x j => max x (f j)) a := by
  induction l generalizing a with
  | nil => exact le_refl a
  | cons j l ih => exact le_trans (le_max_left a (f j)) (ih (max a (f j)))

/-- Initial element bound: a `foldl` of binary minima is at most its initial
accumulator. -/
theorem foldl_min_le (f : ℕ → ℚ) (l : List ℕ) (a : ℚ) :
    l.foldl (fun x j => min x (f j)) a ≤ a := by
  induction l generalizing a with
  | nil => exact le_refl a
  | cons j l ih => exact le_trans (ih (min a (f j))) (min_le_left a (f j))

/-- A per-feature range (max minus min) is never negative. -/
theorem range_nonneg (m : AMat) (i : ℕ) : 0 ≤ m.range i := by
  unfold AMat.range AMat.rowMax AMat.rowMin
  have h1 := le_foldl_max (m.entry i) (List.range m.nCols) (m.entry i 0)
  have h2 := foldl_min_le (m.entry i) (List.range m.nCols) (m.entry i 0)
  linarith

/-- The adjusted range (zero ranges replaced by 1) is strictly positive, so
its inverse is a well-defined finite value. -/
theorem adjRange_pos (m : AMat) (i : ℕ) : 0 < m.adjRange i := by
  unfold AMat.adjRange
  split
  · norm_num
  · exact lt_of_le_of_ne (range_nonneg m i) (Ne.symm (by assumption))

/-- Claim C5: with `normalize` set, the initial transform is the square
diagonal matrix whose diagonal holds the inverses of the per-feature
adjusted ranges (ranges of exactly 0 replaced by 1 before inversion), and
every adjusted range is strictly positive — no division by zero occurs, so
no entry is NaN or infinite. -/
theorem nca_C5 (data : AMat) (h : 0 < data.nCols) :
    (initialDistance true data).nRows = data.nRows ∧
    (initialDistance true data).nCols = data.nRows ∧
    (∀ i j, i < data.nRows → j < data.nRows →
      (initialDistance true data).entry i j =
        if i = j then (data.adjRange i)⁻¹ else 0) ∧
    (∀ i, 0 < data.adjRange i) := by
  refine ⟨rfl, rfl, ?_, fun i => adjRange_pos data i⟩
  intro i j hi hj
  unfold initialDistance
  by_cases hij : i = j
  · subst hij
    simp [hi, one_div]
  · simp [hij]

/-- Concrete dataset of the normalize-start scenario of the spec: 2 features
with ranges [0, 10] and [0, 0]. -/
def dataC5 : AMat := ⟨2, 2, fun i j => if i = 0 ∧ j = 1 then 10 else 0⟩

/-- Claim C5, witness at the degenerate-range scenario. -/
theorem nca_C5_witness :
    0 < dataC5.adjRange 1 ∧
    (initialDistance true dataC5).entry 1 1 = (dataC5.adjRange 1)⁻¹ ∧
    (initialDistance true dataC5).entry 0 0 = (dataC5.adjRange 0)⁻¹ := by
  have h := nca_C5 dataC5 (by decide)
  exact ⟨h.2.2.2 1, by simpa using h.2.2.1 1 1 (by decide) (by decide),
         by simpa using h.2.2.1 0 0 (by decide) (by decide)⟩

/-- Claim C7: with `labels` absent, the feature matrix handed to the run has
one fewer row than the input, the raw label of point `i` is the truncation
of the last-row entry of column `i`, and every optimizer run of the
label-handling stage receives the shed matrix (and the normalization of the
last-row labels); with `labels` supplied (and matching), the run receives
the input matrix with all of its rows. -/
theorem nca_C7 (grad : AMat → List ℕ → List ℕ → AMat)
    (shuffleOrder : ℕ → ℕ → List ℕ) (rng : ℕ) (p : NcaParams) :
    (p.labels = none → 0 < p.input.nRows →
      (shedLastRow p.input).nRows + 1 = p.input.nRows ∧
      (∀ i, i < p.input.nCols →
        (lastRowLabels p.input)[i]? =
          some (sizeTOfRat (p.input.entry (p.input.nRows - 1) i))) ∧
      (∀ e ∈ mainLabels grad shuffleOrder rng p,
        (∀ d, e.runData = some d → d = shedLastRow p.input) ∧
        (∀ l, e.runLabels = some l →
          l = (normalizeLabels (lastRowLabels p.input)).1))) ∧
    (∀ ls, p.labels = some ls → ls.length = p.input.nCols →
      ∀ e ∈ mainLabels grad shuffleOrder rng p, ∀ d, e.runData = some d →
        d = p.input) := by
  constructor
  · intro hnone hrows
    refine ⟨?_, ?_, ?_⟩
    · show p.input.nRows - 1 + 1 = p.input.nRows
      omega
    · intro i hi
      unfold lastRowLabels
      simp [List.getElem?_map, List.getElem?_range, hi]
    · intro e he
      rw [mainLabels_none grad shuffleOrder rng p hnone] at he
      rcases List.mem_cons.mp he with h1 | h2
      · subst h1
        exact ⟨fun d hd => by simp [Event.runData] at hd,
               fun l hl => by simp [Event.runLabels] at hl⟩
      · have h := mainRun_run_args grad shuffleOrder rng p _ _ e h2
        exact ⟨h.1, h.2.2⟩
  · intro ls hsome hlen e he d hd
    rw [mainLabels_some grad shuffleOrder rng p ls hsome,
      if_neg (show ¬(ls.length ≠ p.input.nCols) from fun hc => hc hlen)] at he
    exact (mainRun_run_args grad shuffleOrder rng p _ _ e he).1 d hd

/-- A concrete 2×2 dataset whose last row holds the labels 2 and 3. -/
def dataB2 : AMat := ⟨2, 2, fun i j => if i < 2 ∧ j < 2 then (i : ℚ) * 2 + (j : ℚ) else 0⟩

/-- A configuration with no `labels` parameter: labels come from the last
row of the input. -/
def pNoLab : NcaParams := { pBase with input := dataB2, labels := none }

/-- Claim C7, witness at a concrete 2×2 input without a labels parameter. -/
theorem nca_C7_witness :
    (shedLastRow pNoLab.input).nRows + 1 = pNoLab.input.nRows ∧
    (lastRowLabels pNoLab.input)[0]? = some (sizeTOfRat (pNoLab.input.entry 1 0)) := by
  have h := (nca_C7 gradZero shufId 0 pNoLab).1 rfl (by decide)
  exact ⟨h.1, by simpa using h.2.1 0 (by decide)⟩

end NCAMain

namespace PCAW

open Matrix

/-- Row-wise mean of a column-major data matrix (`arma::mean(input, 1)`):
entry `i` is the mean of feature `i` across the `n` points. -/
noncomputable def rowMean {d n : ℕ} (X : Matrix (Fin d) (Fin n) ℝ) : Fin d → ℝ :=
  fun i => (∑ j, X i j) / n

/-- Column-wise centering (`input.each_col() - itemMean`, line 67 of
`pcawhitening.hpp`). -/
noncomputable def center {d n : ℕ} (X : Matrix (Fin d) (Fin n) ℝ) :
    Matrix (Fin d) (Fin n) ℝ :=
  Matrix.of fun i j => X i j - rowMean X i

/-- Modelled from the spec: `mlpack::math::ColumnCovariance` (defined in
`core/math/lin_alg`, which is not among the reviewed sources) with the
default `norm_type = 0`: the unbiased covariance of the columns,
`(A.each_col() - mean) * (A.each_col() - mean)ᵀ / (n - 1)`. -/
noncomputable def columnCovariance {d n : ℕ} (X : Matrix (Fin d) (Fin n) ℝ) :
    Matrix (Fin d) (Fin d) ℝ :=
  ((n : ℝ) - 1)⁻¹ • (center X * (center X)ᵀ)

/-- Modelled from the spec: the contract of the LAPACK symmetric
eigendecomposition behind `arma::eig_sym` (an external library routine):
eigenvalues in ascending order, orthonormal eigenvector columns, and the
spectral decomposition `A = V ⬝ diag(lam) ⬝ Vᵀ`. -/
structure EigSymSpec {d : ℕ} (A : Matrix (Fin d) (Fin d) ℝ) (lam : Fin d → ℝ)
    (V : Matrix (Fin d) (Fin d) ℝ) : Prop where
  orth : Vᵀ * V = 1
  decomp : A = V * Matrix.diagonal lam * Vᵀ
  ascend : ∀ i j : Fin d, i ≤ j → lam i ≤ lam j

/-- The state a `PcaWhitening` object holds after `Transform`: the feature
means, the (regularized) eigenvalues, and the eigenvectors. -/
structure PcaWhiteningState (d : ℕ) where
  itemMean : Fin d → ℝ
  eigenValues : Fin d → ℝ
  eigenVectors : Matrix (Fin d) (Fin d) ℝ

/-- `PcaWhitening::Transform` (lines 62-74 of `pcawhitening.hpp`): center the
input, take the eigendecomposition `(lam, V)` of the column covariance of the
centered data (supplied here as arguments constrained by `EigSymSpec`), add
the regularization `eps` to every eigenvalue, and output
`diagmat(1 / sqrt(eigenValues)) * Vᵀ * centered`; the object records the
mean, the regularized eigenvalues and the eigenvectors. -/
noncomputable def transform {d n : ℕ} (eps : ℝ) (X : Matrix (Fin d) (Fin n) ℝ)
    (lam : Fin d → ℝ) (V : Matrix (Fin d) (Fin d) ℝ) :
    PcaWhiteningState d × Matrix (Fin d) (Fin n) ℝ :=
  (⟨rowMean X, fun i => lam i + eps, V⟩,
   (Matrix.diagonal fun i => 1 / Real.sqrt (lam i + eps)) * Vᵀ * center X)

/-- `PcaWhitening::InverseTransform` (lines 82-88 of `pcawhitening.hpp`):
`diagmat(sqrt(eigenValues)) * inv(eigenVectors.t()) * input`, then add the
stored mean back to every column. -/
noncomputable def inverseTransform {d n : ℕ} (st : PcaWhiteningState d)
    (Y : Matrix (Fin d) (Fin n) ℝ) : Matrix (Fin d) (Fin n) ℝ :=
  Matrix.of fun i j =>
    (((Matrix.diagonal fun k => Real.sqrt (st.eigenValues k)) *
        (st.eigenVectors)ᵀ⁻¹ * Y) i j) + st.itemMean i

/-- `Transform` followed by `InverseTransform` on its output, as in the usage
example of the class documentation. -/
noncomputable def roundTrip {d n : ℕ} (eps : ℝ) (X : Matrix (Fin d) (Fin n) ℝ)
    (lam : Fin d → ℝ) (V : Matrix (Fin d) (Fin d) ℝ) : Matrix (Fin d) (Fin n) ℝ :=
  inverseTransform (transform eps X lam V).1 (transform eps X lam V).2

/-- The row means of a centered matrix are all zero. -/
theorem rowMean_center {d n : ℕ} (X : Matrix (Fin d) (Fin n) ℝ) :
    rowMean (center X) = fun _ => 0 := by
  funext i
  rcases Nat.eq_zero_or_pos n with h | h
  · subst h
    unfold rowMean center
    simp
  · have hn : (n : ℝ) ≠ 0 := Nat.cast_ne_zero.mpr h.ne'
    unfold rowMean center
    simp only [Matrix.of_apply, Finset.sum_sub_distrib, Finset.sum_const,
      Finset.card_univ, Fintype.card_fin, nsmul_eq_mul]
    unfold rowMean
    field_simp

/-- A matrix whose row means vanish is unchanged by centering. -/
theorem center_of_rowMean_zero {d n : ℕ} (X : Matrix (Fin d) (Fin n) ℝ)
    (h : rowMean X = fun _ => 0) : center X = X := by
  funext i j
  unfold center
  simp [congrFun h i]

/-- Centering is idempotent. -/
theorem center_center {d n : ℕ} (X : Matrix (Fin d) (Fin n) ℝ) :
    center (center X) = center X :=
  center_of_rowMean_zero (center X) (rowMean_center X)

/-- Row means of a product: the mean vector of `A * B` is `A` applied to the
mean vector of `B`. -/
theorem rowMean_mul {d e n : ℕ} (A : Matrix (Fin d) (Fin e) ℝ)
    (B : Matrix (Fin e) (Fin n) ℝ) :
    rowMean (A * B) = A.mulVec (rowMean B) := by
  funext i
  unfold rowMean
  simp only [Matrix.mul_apply, Matrix.mulVec, dotProduct]
  rw [Finset.sum_comm, Finset.sum_div]
  congr 1
  funext k
  rw [← Finset.mul_sum, mul_div_assoc]

/-- The covariance handed to `eig_sym` in `Transform`, rewritten without the
inner re-centering (centering is idempotent). -/
theorem columnCovariance_center {d n : ℕ} (X : Matrix (Fin d) (Fin n) ℝ) :
    columnCovariance (center X) =
      ((n : ℝ) - 1)⁻¹ • (center X * (center X)ᵀ) := by
  unfold columnCovariance
  rw [center_center]

/-- Conjugating the decomposed matrix by the orthonormal eigenvector basis
recovers the diagonal of eigenvalues. -/
theorem diagonal_eq_conj {d : ℕ} {A : Matrix (Fin d) (Fin d) ℝ} {lam : Fin d → ℝ}
    {V : Matrix (Fin d) (Fin d) ℝ} (he : EigSymSpec A lam V) :
    Matrix.diagonal lam = Vᵀ * A * V := by
  have h1 : Vᵀ * (V * Matrix.diagonal lam * Vᵀ) * V
      = Vᵀ * V * Matrix.diagonal lam * (Vᵀ * V) := by
    simp only [Matrix.mul_assoc]
  rw [he.decomp, h1, he.orth, Matrix.one_mul, Matrix.mul_one]

/-- Every eigenvalue returned by the eigendecomposition of the column
covariance is non-negative (the covariance is positive semidefinite). -/
theorem eig_nonneg {d n : ℕ} (X : Matrix (Fin d) (Fin n) ℝ) {lam : Fin d → ℝ}
    {V : Matrix (Fin d) (Fin d) ℝ}
    (he : EigSymSpec (columnCovariance (center X)) lam V) : ∀ i, 0 ≤ lam i := by
  intro i
  have hlam : lam i = (Vᵀ * columnCovariance (center X) * V) i i := by
    rw [← diagonal_eq_conj he, Matrix.diagonal_apply_eq]
  have hconj : Vᵀ * (((n : ℝ) - 1)⁻¹ • (center X * (center X)ᵀ)) * V
      = ((n : ℝ) - 1)⁻¹ • ((Vᵀ * center X) * (Vᵀ * center X)ᵀ) := by
    rw [Matrix.mul_smul, Matrix.smul_mul]
    congr 1
    rw [Matrix.transpose_mul, Matrix.transpose_transpose]
    simp only [Matrix.mul_assoc]
  rw [hlam, columnCovariance_center, hconj, Matrix.smul_apply, smul_eq_mul]
  rcases Nat.eq_zero_or_pos n with hn | hn
  · subst hn
    have hzero : ((Vᵀ * center X) * (Vᵀ * center X)ᵀ) i i = 0 := by
      rw [Matrix.mul_apply]
      simp
    rw [hzero, mul_zero]
  · have hr : 0 ≤ ((n : ℝ) - 1)⁻¹ := by
      apply inv_nonneg.mpr
      have h1 : (1 : ℝ) ≤ (n : ℝ) := by exact_mod_cast hn
      linarith
    apply mul_nonneg hr
    rw [Matrix.mul_apply]
    apply Finset.sum_nonneg
    intro j _
    rw [Matrix.transpose_apply]
    exact mul_self_nonneg _

/-- The determinant of the decomposed matrix is the product of the
eigenvalues (the eigenvector determinant squares to one). -/
theorem det_eq_prod_eig {d : ℕ} {A : Matrix (Fin d) (Fin d) ℝ} {lam : Fin d → ℝ}
    {V : Matrix (Fin d) (Fin d) ℝ} (he : EigSymSpec A lam V) :
    A.det = ∏ i, lam i := by
  have hv : V.det * V.det = 1 := by
    have h := congrArg Matrix.det he.orth
    rwa [Matrix.det_mul, Matrix.det_transpose, Matrix.det_one] at h
  rw [he.decomp, Matrix.det_mul, Matrix.det_mul, Matrix.det_transpose,
    Matrix.det_diagonal]
  have h2 : V.det * (∏ i, lam i) * V.det = V.det * V.det * ∏ i, lam i := by ring
  rw [h2, hv, one_mul]

/-- With a nonsingular covariance, every eigenvalue is strictly positive. -/
theorem eig_pos {d n : ℕ} (X : Matrix (Fin d) (Fin n) ℝ) {lam : Fin d → ℝ}
    {V : Matrix (Fin d) (Fin d) ℝ}
    (he : EigSymSpec (columnCovariance (center X)) lam V)
    (hdet : (columnCovariance (center X)).det ≠ 0) : ∀ i, 0 < lam i := by
  intro i
  have hnz : lam i ≠ 0 := by
    intro h0
    apply hdet
    rw [det_eq_prod_eig he]
    exact Finset.prod_eq_zero (Finset.mem_univ i) h0
  exact lt_of_le_of_ne (eig_nonneg X he i) (Ne.symm hnz)

/-- Claim C6: with regularization 0 and a full-rank (nonsingular) column
covariance, the output of `Transform` has per-feature mean zero and column
covariance exactly the identity matrix: the features are decorrelated and
unit-scaled. -/
theorem pca_C6 {d n : ℕ} (X : Matrix (Fin d) (Fin n) ℝ) (lam : Fin d → ℝ)
    (V : Matrix (Fin d) (Fin d) ℝ)
    (he : EigSymSpec (columnCovariance (center X)) lam V)
    (hdet : (columnCovariance (center X)).det ≠ 0) :
    rowMean (transform 0 X lam V).2 = (fun _ => 0) ∧
    columnCovariance (transform 0 X lam V).2 = 1 := by
  have hpos := eig_pos X he hdet
  have hout : (transform 0 X lam V).2 =
      ((Matrix.diagonal fun i => 1 / Real.sqrt (lam i + 0)) * Vᵀ) * center X := by
    unfold transform
    simp only [Matrix.mul_assoc]
  have hmean : rowMean (transform 0 X lam V).2 = fun _ => 0 := by
    rw [hout, rowMean_mul, rowMean_center]
    funext i
    simp [Matrix.mulVec, dotProduct]
  refine ⟨hmean, ?_⟩
  have hcout : center (transform 0 X lam V).2 = (transform 0 X lam V).2 :=
    center_of_rowMean_zero _ hmean
  unfold columnCovariance
  rw [hcout, hout]
  have hassoc :
      (Matrix.diagonal fun i => 1 / Real.sqrt (lam i + 0)) * Vᵀ * center X *
        ((Matrix.diagonal fun i => 1 / Real.sqrt (lam i + 0)) * Vᵀ * center X)ᵀ =
      (Matrix.diagonal fun i => 1 / Real.sqrt (lam i + 0)) * Vᵀ *
        (center X * (center X)ᵀ) *
        (V * Matrix.diagonal fun i => 1 / Real.sqrt (lam i + 0)) := by
    rw [Matrix.transpose_mul, Matrix.transpose_mul, Matrix.transpose_transpose,
      Matrix.diagonal_transpose]
    simp only [Matrix.mul_assoc]
  rw [hassoc]
  have hpull : ((n : ℝ) - 1)⁻¹ •
      ((Matrix.diagonal fun i => 1 / Real.sqrt (lam i + 0)) * Vᵀ *
        (center X * (center X)ᵀ) *
        (V * Matrix.diagonal fun i => 1 / Real.sqrt (lam i + 0))) =
      (Matrix.diagonal fun i => 1 / Real.sqrt (lam i + 0)) * Vᵀ *
        (((n : ℝ) - 1)⁻¹ • (center X * (center X)ᵀ)) *
        (V * Matrix.diagonal fun i => 1 / Real.sqrt (lam i + 0)) := by
    rw [Matrix.mul_smul, Matrix.smul_mul]
  rw [hpull, ← columnCovariance_center, he.decomp]
  have hcollapse :
      (Matrix.diagonal fun i => 1 / Real.sqrt (lam i + 0)) * Vᵀ *
        (V * Matrix.diagonal lam * Vᵀ) *
        (V * Matrix.diagonal fun i => 1 / Real.sqrt (lam i + 0)) =
      (Matrix.diagonal fun i => 1 / Real.sqrt (lam i + 0)) * ((Vᵀ * V) *
        (Matrix.diagonal lam * ((Vᵀ * V) *
          Matrix.diagonal fun i => 1 / Real.sqrt (lam i + 0)))) := by
    simp only [Matrix.mul_assoc]
  rw [hcollapse, he.orth, Matrix.one_mul, Matrix.one_mul,
    Matrix.diagonal_mul_diagonal, Matrix.diagonal_mul_diagonal]
  ext i j
  rcases eq_or_ne i j with rfl | hij
  · rw [Matrix.one_apply_eq, Matrix.diagonal_apply_eq]
    simp only [Pi.mul_apply, add_zero]
    have hp := hpos i
    have hsne : Real.sqrt (lam i) ≠ 0 := ne_of_gt (Real.sqrt_pos.mpr hp)
    field_simp
  · rw [Matrix.one_apply_ne hij, Matrix.diagonal_apply_ne _ hij]

/-- Claim C10: for every input and every regularization `eps > 0`, each
denominator `sqrt(eigenValue + eps)` used inside `Transform` (the square
roots of the stored eigenvalues) is strictly positive, because the
eigenvalues of the column covariance are non-negative: `Transform` never
divides by zero, even on rank-deficient input. -/
theorem pca_C10 {d n : ℕ} (X : Matrix (Fin d) (Fin n) ℝ) (lam : Fin d → ℝ)
    (V : Matrix (Fin d) (Fin d) ℝ) (eps : ℝ)
    (he : EigSymSpec (columnCovariance (center X)) lam V) (heps : 0 < eps) :
    ∀ i, 0 < Real.sqrt ((transform eps X lam V).1.eigenValues i) := by
  intro i
  have h := eig_nonneg X he i
  have : (transform eps X lam V).1.eigenValues i = lam i + eps := rfl
  rw [this]
  exact Real.sqrt_pos.mpr (by linarith)

/-- A concrete 2×9 dataset with zero feature means, correlated features, and
a full-rank covariance with rational eigendata: eigenvalues 1 and 4 with
eigenvectors (3/5, 4/5) and (-4/5, 3/5). -/
noncomputable def X0 : Matrix (Fin 2) (Fin 9) ℝ :=
  !![6/5, -6/5, -16/5, 16/5, 0, 0, 0, 0, 0;
     8/5, -8/5, 12/5, -12/5, 0, 0, 0, 0, 0]

/-- The eigenvalues of the covariance of `X0`, in ascending order. -/
noncomputable def lam0 : Fin 2 → ℝ := ![1, 4]

/-- The orthonormal eigenvector matrix of the covariance of `X0`. -/
noncomputable def V0 : Matrix (Fin 2) (Fin 2) ℝ := !![3/5, -4/5; 4/5, 3/5]

/-- The column covariance of `X0` as an explicit matrix. -/
noncomputable def covC0 : Matrix (Fin 2) (Fin 2) ℝ :=
  !![73/25, -36/25; -36/25, 52/25]

/-- The feature means of `X0` vanish. -/
theorem rowMean_X0 : rowMean X0 = fun _ => 0 := by
  funext i
  unfold rowMean
  fin_cases i <;>
    · simp [X0, Fin.sum_univ_succ]
      norm_num

/-- `X0` is unchanged by centering. -/
theorem center_X0 : center X0 = X0 :=
  center_of_rowMean_zero X0 rowMean_X0

/-- The column covariance of the centered `X0`, computed explicitly. -/
theorem cov_X0 : columnCovariance (center X0) = covC0 := by
  rw [columnCovariance_center, center_X0]
  ext i j
  fin_cases i <;> fin_cases j <;>
    · simp [X0, covC0, Matrix.mul_apply, Matrix.transpose_apply, Matrix.smul_apply,
        Fin.sum_univ_succ, Matrix.vecHead, Matrix.vecTail]
      norm_num

/-- The concrete eigendata `(lam0, V0)` satisfies the `eig_sym` contract on
the covariance of `X0`. -/
theorem eig_X0 : EigSymSpec (columnCovariance (center X0)) lam0 V0 := by
  refine ⟨?_, ?_, ?_⟩
  · ext i j
    fin_cases i <;> fin_cases j <;>
      · simp [V0, Matrix.mul_apply, Matrix.transpose_apply, Matrix.one_apply,
          Fin.sum_univ_succ, Matrix.vecHead, Matrix.vecTail]
        norm_num
  · rw [cov_X0]
    ext i j
    fin_cases i <;> fin_cases j <;>
      · simp [V0, lam0, covC0, Matrix.mul_apply, Matrix.transpose_apply,
          Matrix.diagonal, Fin.sum_univ_succ, Matrix.vecHead, Matrix.vecTail]
        norm_num
  · intro i j hij
    fin_cases i <;> fin_cases j
    · exact le_refl _
    · norm_num [lam0]
    · simp only [Fin.mk_le_mk] at hij
      omega
    · exact le_refl _

/-- The covariance of `X0` is nonsingular. -/
theorem det_covX0 : (columnCovariance (center X0)).det ≠ 0 := by
  rw [cov_X0, Matrix.det_fin_two]
  norm_num [covC0]

/-- Claim C6, witness at the concrete full-rank dataset `X0`. -/
theorem pca_C6_witness :
    rowMean (transform 0 X0 lam0 V0).2 = (fun _ => 0) ∧
    columnCovariance (transform 0 X0 lam0 V0).2 = 1 :=
  pca_C6 X0 lam0 V0 eig_X0 det_covX0

/-- Claim C10, witness at the concrete dataset `X0` with `eps = 1`. -/
theorem pca_C10_witness :
    0 < Real.sqrt ((transform 1 X0 lam0 V0).1.eigenValues 0) :=
  pca_C10 X0 lam0 V0 1 eig_X0 (by norm_num) 0

/-- Claim C3 (code_bug): for the concrete full-rank dataset `X0` with
regularization 0, `Transform` followed by `InverseTransform` does not return
the original matrix, for every eigendecomposition satisfying the `eig_sym`
contract.  `InverseTransform` computes
`diagmat(sqrt(eigenValues)) * inv(eigenVectors.t())` — the factors in the
wrong order (the inverse of `diagmat(1/sqrt(eigenValues)) * eigenVectors.t()`
is `eigenVectors * diagmat(sqrt(eigenValues))`), so the round trip multiplies
by `D V D⁻¹ Vᵀ ≠ 1` whenever `D` and `V` do not commute. -/
theorem pca_C3 (lam : Fin 2 → ℝ) (V : Matrix (Fin 2) (Fin 2) ℝ)
    (he : EigSymSpec (columnCovariance (center X0)) lam V) :
    roundTrip 0 X0 lam V ≠ X0 := by
  have hVVt : V * Vᵀ = 1 := Matrix.mul_eq_one_comm.mp he.orth
  have hVinv : (Vᵀ)⁻¹ = V := Matrix.inv_eq_right_inv he.orth
  -- the eigenvalues must be 1 and 4
  have htr5 : Matrix.trace (columnCovariance (center X0)) = 5 := by
    rw [cov_X0, Matrix.trace_fin_two]
    norm_num [covC0]
  have hsum : lam 0 + lam 1 = 5 := by
    have h1 : Matrix.trace (Matrix.diagonal lam) = lam 0 + lam 1 := by
      rw [Matrix.trace_diagonal, Fin.sum_univ_two]
    rw [← h1, diagonal_eq_conj he, Matrix.trace_mul_cycle, hVVt, Matrix.one_mul, htr5]
  have hdet4 : (columnCovariance (center X0)).det = 4 := by
    rw [cov_X0, Matrix.det_fin_two]
    norm_num [covC0]
  have hprod : lam 0 * lam 1 = 4 := by
    have h := det_eq_prod_eig he
    rw [hdet4, Fin.prod_univ_two] at h
    exact h.symm
  have hasc : lam 0 ≤ lam 1 := he.ascend 0 1 (by decide)
  have h1' : lam 1 = 5 - lam 0 := by linarith
  have hq : lam 0 * (5 - lam 0) = 4 := by rw [← h1']; exact hprod
  have hfac : (lam 0 - 1) * (lam 0 - 4) = 0 := by linear_combination -hq
  have hl0 : lam 0 = 1 := by
    rcases mul_eq_zero.mp hfac with h0 | h0
    · linarith
    · exfalso
      have h4 : lam 0 = 4 := by linarith
      have : lam 1 = 1 := by linarith
      linarith
  have hl1 : lam 1 = 4 := by linarith
  have hs4 : Real.sqrt 4 = 2 := by
    rw [show (4 : ℝ) = 2 ^ 2 by norm_num, Real.sqrt_sq (by norm_num : (0 : ℝ) ≤ 2)]
  -- the inverse-direction diagonal as an affine combination of 1 and Λ
  have hD1 : (Matrix.diagonal fun i => 1 / Real.sqrt (lam i + 0)) =
      (7/6 : ℝ) • (1 : Matrix (Fin 2) (Fin 2) ℝ) + (-1/6 : ℝ) • Matrix.diagonal lam := by
    ext i j
    rcases eq_or_ne i j with rfl | hij
    · rw [Matrix.diagonal_apply_eq]
      rw [Matrix.add_apply, Matrix.smul_apply, Matrix.smul_apply, Matrix.one_apply_eq,
        Matrix.diagonal_apply_eq]
      fin_cases i
      · simp [hl0, Real.sqrt_one]
        norm_num
      · simp [hl1, hs4]
        norm_num
    · rw [Matrix.diagonal_apply_ne _ hij, Matrix.add_apply, Matrix.smul_apply,
        Matrix.smul_apply, Matrix.one_apply_ne hij, Matrix.diagonal_apply_ne _ hij]
      norm_num
  have hVD1Vt : V * (Matrix.diagonal fun i => 1 / Real.sqrt (lam i + 0)) * Vᵀ =
      (7/6 : ℝ) • (1 : Matrix (Fin 2) (Fin 2) ℝ) + (-1/6 : ℝ) • covC0 := by
    rw [hD1, Matrix.mul_add, Matrix.add_mul, Matrix.mul_smul, Matrix.mul_smul,
      Matrix.smul_mul, Matrix.smul_mul, Matrix.mul_one, hVVt]
    congr 1
    rw [← cov_X0]
    exact congrArg _ he.decomp.symm
  -- the square-root diagonal is concrete
  have hD2 : (Matrix.diagonal fun k => Real.sqrt (lam k + 0)) =
      (!![1, 0; 0, 2] : Matrix (Fin 2) (Fin 2) ℝ) := by
    ext i j
    rcases eq_or_ne i j with rfl | hij
    · rw [Matrix.diagonal_apply_eq]
      fin_cases i
      · simp [hl0, Real.sqrt_one]
      · simp [hl1, hs4]
    · rw [Matrix.diagonal_apply_ne _ hij]
      fin_cases i <;> fin_cases j <;> simp_all
  -- the (1,0) entry of the round trip
  have h1 : roundTrip 0 X0 lam V 1 0 =
      ((Matrix.diagonal fun k => Real.sqrt (lam k + 0)) * (Vᵀ)⁻¹ *
        ((Matrix.diagonal fun i => 1 / Real.sqrt (lam i + 0)) * Vᵀ * center X0)) 1 0 +
        rowMean X0 1 := rfl
  have hm1 : rowMean X0 1 = 0 := by rw [rowMean_X0]
  rw [hVinv, center_X0, hm1, add_zero] at h1
  have hassoc2 : (Matrix.diagonal fun k => Real.sqrt (lam k + 0)) * V *
      ((Matrix.diagonal fun i => 1 / Real.sqrt (lam i + 0)) * Vᵀ * X0) =
      (Matrix.diagonal fun k => Real.sqrt (lam k + 0)) *
        (V * (Matrix.diagonal fun i => 1 / Real.sqrt (lam i + 0)) * Vᵀ) * X0 := by
    simp only [Matrix.mul_assoc]
  rw [hassoc2, hVD1Vt, hD2] at h1
  have hcompute : ((!![1, 0; 0, 2] : Matrix (Fin 2) (Fin 2) ℝ) *
      ((7/6 : ℝ) • (1 : Matrix (Fin 2) (Fin 2) ℝ) + (-1/6 : ℝ) • covC0) * X0) 1 0 =
      16/5 := by
    simp [covC0, X0, Matrix.mul_apply, Matrix.one_apply, Matrix.smul_apply,
      Matrix.add_apply, Fin.sum_univ_succ, Matrix.vecHead, Matrix.vecTail,
      Matrix.vecMul, dotProduct]
    norm_num
  intro hcontra
  have hval : roundTrip 0 X0 lam V 1 0 = 16/5 := by rw [h1]; exact hcompute
  rw [hcontra] at hval
  norm_num [X0, Matrix.vecHead, Matrix.vecTail] at hval

/-- Claim C3, witness: the concrete eigendata satisfies the `eig_sym`
contract on the covariance of `X0`, and the round trip at `X0` with that
eigendata does not return `X0`. -/
theorem pca_C3_witness :
    EigSymSpec (columnCovariance (center X0)) lam0 V0 ∧
    roundTrip 0 X0 lam0 V0 ≠ X0 :=
  ⟨eig_X0, pca_C3 lam0 V0 eig_X0⟩

end PCAW
